import Mathlib

/-!
Verification of the consul_exporter collection pipeline
(src/consul_exporter.go) against its specification.

The Go source is shallowly embedded: the gauge state of the `Exporter`
struct becomes a Lean structure of partial maps (label tuple to rational
value), the Consul client becomes a structure of query results (each a
value paired with a Go-style error flag), and the channel-based
dispatcher/aggregator pair becomes a producer returning the lists of
batches sent on each stream plus a consumer folding over an arbitrary
interleaving of those batches.
-/

namespace ConsulExporter

/-- `consul.HealthPassing` from hashicorp/consul structs. -/
def HealthPassing : String := "passing"

/-- One health check record (`consul_api.HealthCheck`): the fields the
exporter reads. -/
structure HealthCheck where
  node : String
  checkID : String
  serviceID : String
  status : String
deriving DecidableEq, Repr

/-- One service entry (`consul_api.ServiceEntry`): `Service.Service`,
`Node.Node` and the check list, the fields the exporter reads. -/
structure ServiceEntry where
  service : String
  node : String
  checks : List HealthCheck
deriving DecidableEq, Repr

/-- A key/value pair from the Consul KV store (`consul_api.KVPair`). -/
structure KVPair where
  key : String
  value : String
deriving DecidableEq, Repr

/-- A Go multi-valued return: the result value together with the
`err != nil` flag.  Go may return both a meaningful value and an error. -/
structure GoRes (α : Type) where
  val : α
  err : Bool

/-- The backend client (`consul_api.Client`): each query the exporter
issues, as a pre-determined response. -/
structure Client where
  peers : GoRes (List String)
  nodes : GoRes (List String)
  services : GoRes (List String)
  health : String → GoRes (List ServiceEntry)
  state : GoRes (List HealthCheck)
  kvList : String → GoRes (List KVPair)

/-- The gauge state of the `Exporter` struct.  Scalar gauges are plain
rationals (a Prometheus gauge holds a float, initially 0); vector gauges
(`GaugeVec`) are partial maps from their label tuple: `none` means no
child with that label combination exists. -/
structure Exporter where
  up : ℚ
  clusterServers : ℚ
  nodeCount : ℚ
  serviceCount : ℚ
  serviceNodesTotal : String → Option ℚ
  serviceNodesHealthy : String × String → Option ℚ
  serviceEntriesNodesTotal : String × String → Option ℚ
  serviceEntriesNodesHealthy : String × String → Option ℚ
  nodeChecks : String × String → Option ℚ
  keyValues : String → Option ℚ

/-- `GaugeVec.WithLabelValues(k).Set(v)`: point update of a vector gauge. -/
def gset {κ : Type} [DecidableEq κ] (g : κ → Option ℚ) (k : κ) (v : ℚ) :
    κ → Option ℚ :=
  fun k' => if k' = k then some v else g k'

/-- The exporter configuration relevant to the KV stage: the `kv.prefix`
flag and the compiled `kv.filter` regular expression (abstracted as its
`MatchString` predicate). -/
structure Config where
  kvPref : String
  kvFilter : String → Bool

/-- The `passing` computation in `setMetrics` (lines 277-284): starts at 1
and drops to 0 at the first check whose status is not `HealthPassing`. -/
def computePassing : List HealthCheck → Nat
  | [] => 1
  | hc :: rest => if hc.status ≠ HealthPassing then 0 else computePassing rest

/-- The two per-batch running-sum maps of `setMetrics` (lines 267-270),
keyed by the `service + "-" + node` concatenation; a missing key reads as
the Go zero value 0. -/
structure BatchMaps where
  total : String → Nat
  healthy : String → Nat

/-- The body of the per-entry loop in `setMetrics` (lines 272-302):
computes `passing`, bumps the running sums under the concatenated key, and
sets the three per-(service,node) gauges. -/
def processEntry (st : Exporter) (m : BatchMaps) (e : ServiceEntry) :
    Exporter × BatchMaps :=
  let passing := computePassing e.checks
  let serviceNode := e.service ++ "-" ++ e.node
  let serviceNodeTotal := m.total serviceNode + 1
  let total1 : String → Nat :=
    fun k => if k = serviceNode then serviceNodeTotal else m.total k
  let serviceNodeHealthy :=
    if passing = 1 then m.healthy serviceNode + 1 else m.healthy serviceNode
  let healthy1 : String → Nat :=
    if passing = 1 then
      fun k => if k = serviceNode then serviceNodeHealthy else m.healthy k
    else m.healthy
  ({ st with
      serviceNodesHealthy :=
        gset st.serviceNodesHealthy (e.service, e.node) (passing : ℚ),
      serviceEntriesNodesTotal :=
        gset st.serviceEntriesNodesTotal (e.service, e.node) (serviceNodeTotal : ℚ),
      serviceEntriesNodesHealthy :=
        gset st.serviceEntriesNodesHealthy (e.service, e.node) (serviceNodeHealthy : ℚ) },
   ⟨total1, healthy1⟩)

/-- The per-entry loop of `setMetrics`, threading the exporter state and
the running-sum maps through the batch. -/
def processEntries (st : Exporter) (m : BatchMaps) :
    List ServiceEntry → Exporter
  | [] => st
  | e :: rest =>
    let p := processEntry st m e
    processEntries p.1 p.2 rest

/-- The `services` case of the select loop (lines 252-302): an empty batch
is skipped; otherwise `serviceNodesTotal` for the first entry's service
name is set to the batch length, and the entries are folded with freshly
allocated running-sum maps. -/
def processServiceBatch (st : Exporter) (batch : List ServiceEntry) :
    Exporter :=
  match batch with
  | [] => st
  | e0 :: _ =>
    let st1 := { st with
      serviceNodesTotal :=
        gset st.serviceNodesTotal e0.service (batch.length : ℚ) }
    processEntries st1 ⟨fun _ => 0, fun _ => 0⟩ batch

/-- The `checks` case of the select loop (lines 304-315): only checks with
an empty `ServiceID` set the per-(check,node) gauge, to 1 when passing and
0 otherwise. -/
def processChecksBatch (st : Exporter) : List HealthCheck → Exporter
  | [] => st
  | hc :: rest =>
    let st1 :=
      if hc.serviceID = "" then
        let passing : ℚ := if hc.status ≠ HealthPassing then 0 else 1
        { st with nodeChecks := gset st.nodeChecks (hc.checkID, hc.node) passing }
      else st
    processChecksBatch st1 rest

/-- A value received by the aggregator's select loop: a batch from the
services stream or a batch from the checks stream. -/
inductive Msg where
  | svc (batch : List ServiceEntry)
  | chk (batch : List HealthCheck)

/-- Dispatch of one received value to the matching select case. -/
def processMsg (st : Exporter) : Msg → Exporter
  | .svc b => processServiceBatch st b
  | .chk b => processChecksBatch st b

/-- The `setMetrics` select loop (lines 246-319): consumes the stream
values in their arrival order until both streams are closed (end of the
list). -/
def setMetrics (st : Exporter) : List Msg → Exporter
  | [] => st
  | msg :: rest => setMetrics (processMsg st msg) rest

/-- The per-service query loop of `queryClient` (lines 225-234): one
health query per service name in order; a failed query is skipped, a
successful batch is sent on the services stream. -/
def serviceBatches (c : Client) : List String → List (List ServiceEntry)
  | [] => []
  | s :: rest =>
    if (c.health s).err then serviceBatches c rest
    else (c.health s).val :: serviceBatches c rest

/-- What `queryClient` produced: the updated scalar gauges, the batches
sent on each of the two streams (both closed by `defer` when the function
returns, i.e. at the end of the lists), and the log of backend queries it
issued, in order. -/
structure QueryResult where
  ex : Exporter
  svcMsgs : List (List ServiceEntry)
  chkMsgs : List (List HealthCheck)
  queries : List String

/-- `queryClient` (lines 187-244): peers query (fatal on error), node
count (soft error), service count set before the error check, then one
health query per service and the final health-state query. -/
def queryClient (c : Client) (st : Exporter) : QueryResult :=
  if c.peers.err then
    ⟨{ st with up := 0 }, [], [], ["peers"]⟩
  else
    let st1 := { st with up := 1, clusterServers := (c.peers.val.length : ℚ) }
    let st2 :=
      if c.nodes.err then st1
      else { st1 with nodeCount := (c.nodes.val.length : ℚ) }
    let st3 := { st2 with serviceCount := (c.services.val.length : ℚ) }
    if c.services.err then
      ⟨st3, [], [], ["peers", "nodes", "services"]⟩
    else
      let st4 := { st3 with serviceCount := (c.services.val.length : ℚ) }
      let svcs := serviceBatches c c.services.val
      let chks := if c.state.err then [] else [c.state.val]
      ⟨st4, svcs, chks,
        ["peers", "nodes", "services"]
          ++ c.services.val.map (fun s => "health " ++ s) ++ ["state"]⟩

/-- The body of the KV loop in `setKeyValues` (lines 334-341): a pair
whose key matches the filter and whose value parses sets the gauge under
the raw key; everything else is a silent no-op. -/
def kvStep (filter : String → Bool) (parse : String → Option ℚ)
    (st : Exporter) (pair : KVPair) : Exporter :=
  if filter pair.key then
    match parse pair.value with
    | some val => { st with keyValues := gset st.keyValues pair.key val }
    | none => st
  else st

/-- The KV loop of `setKeyValues` over the listed pairs. -/
def setKVPairs (filter : String → Bool) (parse : String → Option ℚ)
    (st : Exporter) : List KVPair → Exporter
  | [] => st
  | p :: rest => setKVPairs filter parse (kvStep filter parse st p) rest

/-- `setKeyValues` (lines 321-342): a no-op without a configured prefix,
a logged no-op on a failed listing, otherwise the KV loop.  `parse` stands
for `strconv.ParseFloat(_, 64)`. -/
def setKeyValues (cfg : Config) (parse : String → Option ℚ) (c : Client)
    (st : Exporter) : Exporter :=
  if cfg.kvPref = "" then st
  else
    let r := c.kvList cfg.kvPref
    if r.err then st
    else setKVPairs cfg.kvFilter parse st r.val

/-- The five `Reset()` calls at the start of `Collect` (lines 163-167). -/
def resetHealthVectors (st : Exporter) : Exporter :=
  { st with
      serviceNodesTotal := fun _ => none,
      serviceNodesHealthy := fun _ => none,
      serviceEntriesNodesTotal := fun _ => none,
      serviceEntriesNodesHealthy := fun _ => none,
      nodeChecks := fun _ => none }

/-- One scrape cycle, `Collect` (lines 153-185): run the dispatcher
(which only touches the scalar gauges, so it is sequenced first), reset
the five health vectors, drain both streams, then reset and rebuild the
KV gauge.  The streams are drained here in the canonical order (all
service batches, then the check batch); interleaving independence is
proved separately. -/
def collect (cfg : Config) (parse : String → Option ℚ) (c : Client)
    (st : Exporter) : Exporter :=
  let q := queryClient c st
  let st1 := resetHealthVectors q.ex
  let st2 := setMetrics st1 (q.svcMsgs.map Msg.svc ++ q.chkMsgs.map Msg.chk)
  let st3 := { st2 with keyValues := fun _ => none }
  setKeyValues cfg parse c st3

/-- Number of entries of a batch carrying a given (service, node) pair. -/
def countPair : List ServiceEntry → String → String → Nat
  | [], _, _ => 0
  | e :: rest, s, n =>
    (if e.service = s ∧ e.node = n then 1 else 0) + countPair rest s n

/-- Number of fully passing entries of a batch carrying a given
(service, node) pair. -/
def countPairPassing : List ServiceEntry → String → String → Nat
  | [], _, _ => 0
  | e :: rest, s, n =>
    (if e.service = s ∧ e.node = n ∧ computePassing e.checks = 1 then 1 else 0)
      + countPairPassing rest s n

/-- The `service + "-" + node` concatenation is injective on the
(service, node) pairs of the batch. -/
def ConcatInj (b : List ServiceEntry) : Prop :=
  ∀ e1 ∈ b, ∀ e2 ∈ b,
    e1.service ++ "-" ++ e1.node = e2.service ++ "-" ++ e2.node →
    e1.service = e2.service ∧ e1.node = e2.node

instance (b : List ServiceEntry) : Decidable (ConcatInj b) := by
  unfold ConcatInj; infer_instance

/-- A fresh exporter: scalar gauges 0, no vector gauge children. -/
def E0 : Exporter :=
  { up := 0, clusterServers := 0, nodeCount := 0, serviceCount := 0,
    serviceNodesTotal := fun _ => none,
    serviceNodesHealthy := fun _ => none,
    serviceEntriesNodesTotal := fun _ => none,
    serviceEntriesNodesHealthy := fun _ => none,
    nodeChecks := fun _ => none,
    keyValues := fun _ => none }

/-- Fresh (all-zero) running-sum maps. -/
def M0 : BatchMaps := ⟨fun _ => 0, fun _ => 0⟩

/-! ## Basic facts about the passing computation -/

theorem computePassing_zero_or_one (cs : List HealthCheck) :
    computePassing cs = 0 ∨ computePassing cs = 1 := by
  induction cs with
  | nil => right; rfl
  | cons hc rest ih =>
    by_cases h : hc.status = HealthPassing
    · simpa [computePassing, h] using ih
    · simp [computePassing, h]

theorem computePassing_eq_one_iff (cs : List HealthCheck) :
    computePassing cs = 1 ↔ ∀ hc ∈ cs, hc.status = HealthPassing := by
  induction cs with
  | nil => simp [computePassing]
  | cons hc rest ih =>
    by_cases h : hc.status = HealthPassing
    · simp [computePassing, h, ih]
    · simp [computePassing, h]

/-- C1: for every service entry processed by the aggregator, the
per-(service,node) healthy-flag gauge is set to `computePassing` of the
entry's check list, which is 0 or 1, equals 1 exactly when every check in
the list has status Passing, and is 1 on an empty check list. -/
theorem c1_healthy_flag (st : Exporter) (m : BatchMaps) (e : ServiceEntry) :
    (processEntry st m e).1.serviceNodesHealthy (e.service, e.node)
        = some ((computePassing e.checks : ℚ))
      ∧ (computePassing e.checks = 0 ∨ computePassing e.checks = 1)
      ∧ (computePassing e.checks = 1 ↔
          ∀ hc ∈ e.checks, hc.status = HealthPassing)
      ∧ (e.checks = [] → computePassing e.checks = 1) := by
  refine ⟨?_, computePassing_zero_or_one _, computePassing_eq_one_iff _, ?_⟩
  · simp [processEntry, gset]
  · intro h; rw [h]; rfl

/-- Witness for C1 at a concrete entry with an empty check list. -/
theorem c1_healthy_flag_witness :
    computePassing ([] : List HealthCheck) = 1 :=
  (c1_healthy_flag E0 M0 ⟨"web", "a", []⟩).2.2.2 rfl

/-! ## Component views of the per-entry step -/

theorem processEntries_cons (st : Exporter) (m : BatchMaps)
    (e : ServiceEntry) (rest : List ServiceEntry) :
    processEntries st m (e :: rest)
      = processEntries (processEntry st m e).1 (processEntry st m e).2 rest := rfl

theorem processServiceBatch_cons (st : Exporter) (e0 : ServiceEntry)
    (rest : List ServiceEntry) :
    processServiceBatch st (e0 :: rest)
      = processEntries
          { st with
              serviceNodesTotal :=
                gset st.serviceNodesTotal e0.service (((e0 :: rest).length : ℕ) : ℚ) }
          M0 (e0 :: rest) := rfl

theorem processEntry_total_map (st : Exporter) (m : BatchMaps)
    (e : ServiceEntry) (k : String) :
    (processEntry st m e).2.total k
      = if k = e.service ++ "-" ++ e.node then
          m.total (e.service ++ "-" ++ e.node) + 1
        else m.total k := rfl

theorem processEntry_healthy_map (st : Exporter) (m : BatchMaps)
    (e : ServiceEntry) (k : String) :
    (processEntry st m e).2.healthy k
      = if computePassing e.checks = 1 then
          (if k = e.service ++ "-" ++ e.node then
            m.healthy (e.service ++ "-" ++ e.node) + 1
          else m.healthy k)
        else m.healthy k := by
  by_cases h : computePassing e.checks = 1 <;> simp [processEntry, h]

theorem processEntry_gauge_total (st : Exporter) (m : BatchMaps)
    (e : ServiceEntry) (q : String × String) :
    (processEntry st m e).1.serviceEntriesNodesTotal q
      = if q = (e.service, e.node) then
          some ((m.total (e.service ++ "-" ++ e.node) + 1 : ℕ) : ℚ)
        else st.serviceEntriesNodesTotal q := rfl

theorem processEntry_gauge_healthy (st : Exporter) (m : BatchMaps)
    (e : ServiceEntry) (q : String × String) :
    (processEntry st m e).1.serviceEntriesNodesHealthy q
      = if q = (e.service, e.node) then
          some (((if computePassing e.checks = 1 then
              m.healthy (e.service ++ "-" ++ e.node) + 1
            else m.healthy (e.service ++ "-" ++ e.node)) : ℕ) : ℚ)
        else st.serviceEntriesNodesHealthy q := rfl

theorem countPair_eq_zero (b : List ServiceEntry) (s n : String)
    (h : ∀ e ∈ b, ¬(e.service = s ∧ e.node = n)) : countPair b s n = 0 := by
  induction b with
  | nil => rfl
  | cons e rest ih =>
    have he := h e (List.mem_cons_self e rest)
    simp only [countPair, if_neg he, Nat.zero_add]
    exact ih fun e2 h2 => h e2 (List.mem_cons_of_mem _ h2)

theorem countPairPassing_eq_zero (b : List ServiceEntry) (s n : String)
    (h : ∀ e ∈ b, ¬(e.service = s ∧ e.node = n)) :
    countPairPassing b s n = 0 := by
  induction b with
  | nil => rfl
  | cons e rest ih =>
    have he := h e (List.mem_cons_self e rest)
    have hne : ¬(e.service = s ∧ e.node = n ∧ computePassing e.checks = 1) := by
      intro hx; exact he ⟨hx.1, hx.2.1⟩
    simp only [countPairPassing, if_neg hne, Nat.zero_add]
    exact ih fun e2 h2 => h e2 (List.mem_cons_of_mem _ h2)

/-- Entries with other (service, node) pairs leave the two entry-count
gauges at a given pair untouched. -/
theorem processEntries_untouched (b : List ServiceEntry) :
    ∀ (st : Exporter) (m : BatchMaps) (s n : String),
    (∀ e ∈ b, ¬(e.service = s ∧ e.node = n)) →
    (processEntries st m b).serviceEntriesNodesTotal (s, n)
        = st.serviceEntriesNodesTotal (s, n)
      ∧ (processEntries st m b).serviceEntriesNodesHealthy (s, n)
        = st.serviceEntriesNodesHealthy (s, n) := by
  induction b with
  | nil => intro st m s n _; exact ⟨rfl, rfl⟩
  | cons e rest ih =>
    intro st m s n h
    have he := h e (List.mem_cons_self e rest)
    have hq : ((s, n) : String × String) ≠ (e.service, e.node) := by
      intro hx
      exact he ⟨(Prod.mk.injEq _ _ _ _ ▸ hx).1.symm, (Prod.mk.injEq _ _ _ _ ▸ hx).2.symm⟩
    rw [processEntries_cons]
    obtain ⟨h1, h2⟩ :=
      ih (processEntry st m e).1 (processEntry st m e).2 s n
        (fun e2 h2 => h e2 (List.mem_cons_of_mem _ h2))
    rw [h1, h2, processEntry_gauge_total, processEntry_gauge_healthy,
      if_neg hq, if_neg hq]
    exact ⟨rfl, rfl⟩

/-- Under injectivity of the concatenated key on the batch, the
entry-count gauges at an observed pair end at the starting map value plus
the per-pair counts. -/
theorem processEntries_inj_counts (b : List ServiceEntry) :
    ∀ (st : Exporter) (m : BatchMaps) (s n : String),
    (∀ e1 ∈ b, ∀ e2 ∈ b,
        e1.service ++ "-" ++ e1.node = e2.service ++ "-" ++ e2.node →
        e1.service = e2.service ∧ e1.node = e2.node) →
    (∃ e ∈ b, e.service = s ∧ e.node = n) →
    (processEntries st m b).serviceEntriesNodesTotal (s, n)
        = some ((m.total (s ++ "-" ++ n) + countPair b s n : ℕ) : ℚ)
      ∧ (processEntries st m b).serviceEntriesNodesHealthy (s, n)
        = some ((m.healthy (s ++ "-" ++ n) + countPairPassing b s n : ℕ) : ℚ) := by
  induction b with
  | nil => intro st m s n _ hocc; simp at hocc
  | cons e rest ih =>
    intro st m s n hinj hocc
    rw [processEntries_cons]
    by_cases hrest : ∃ e2 ∈ rest, e2.service = s ∧ e2.node = n
    · -- the last occurrence of (s, n) lies in rest: recurse with updated maps
      obtain ⟨e2, he2, hs2, hn2⟩ := hrest
      have hrinj : ∀ e1 ∈ rest, ∀ e3 ∈ rest,
          e1.service ++ "-" ++ e1.node = e3.service ++ "-" ++ e3.node →
          e1.service = e3.service ∧ e1.node = e3.node :=
        fun e1 h1 e3 h3 =>
          hinj e1 (List.mem_cons_of_mem _ h1) e3 (List.mem_cons_of_mem _ h3)
      obtain ⟨ht, hh⟩ :=
        ih (processEntry st m e).1 (processEntry st m e).2 s n hrinj
          ⟨e2, he2, hs2, hn2⟩
      rw [ht, hh, processEntry_total_map, processEntry_healthy_map]
      by_cases hpair : e.service = s ∧ e.node = n
      · -- e also carries the pair: its concatenated key is the pair's key
        have hkey : s ++ "-" ++ n = e.service ++ "-" ++ e.node := by
          rw [hpair.1, hpair.2]
        constructor
        · rw [if_pos hkey, ← hkey]
          have : countPair (e :: rest) s n = 1 + countPair rest s n := by
            simp [countPair, if_pos hpair]
          rw [this]; push_cast; ring_nf
        · by_cases hp : computePassing e.checks = 1
          · rw [if_pos hp, if_pos hkey, ← hkey]
            have : countPairPassing (e :: rest) s n
                = 1 + countPairPassing rest s n := by
              simp [countPairPassing, hpair.1, hpair.2, hp]
            rw [this]; push_cast; ring_nf
          · rw [if_neg hp]
            have : countPairPassing (e :: rest) s n = countPairPassing rest s n := by
              have : ¬(e.service = s ∧ e.node = n ∧ computePassing e.checks = 1) := by
                intro hx; exact hp hx.2.2
              simp [countPairPassing, if_neg this]
            rw [this]
      · -- e carries another pair; by injectivity its key differs
        have hkey : ¬(s ++ "-" ++ n = e.service ++ "-" ++ e.node) := by
          intro hk
          have hke2 : e2.service ++ "-" ++ e2.node = e.service ++ "-" ++ e.node := by
            rw [hs2, hn2]; exact hk
          have := hinj e2 (List.mem_cons_of_mem _ he2) e
            (List.mem_cons_self e rest) hke2
          exact hpair ⟨this.1 ▸ hs2.symm ▸ rfl, this.2 ▸ hn2.symm ▸ rfl⟩
        have hcp : countPair (e :: rest) s n = countPair rest s n := by
          simp [countPair, if_neg hpair]
        have hcpp : countPairPassing (e :: rest) s n = countPairPassing rest s n := by
          have : ¬(e.service = s ∧ e.node = n ∧ computePassing e.checks = 1) := by
            intro hx; exact hpair ⟨hx.1, hx.2.1⟩
          simp [countPairPassing, if_neg this]
        rw [if_neg hkey, hcp, hcpp]
        constructor
        · rfl
        · by_cases hp : computePassing e.checks = 1
          · rw [if_pos hp, if_neg hkey]
          · rw [if_neg hp]
    · -- e is the last (and only remaining) occurrence of the pair
      obtain ⟨e1, he1, hs1, hn1⟩ := hocc
      have hpair : e.service = s ∧ e.node = n := by
        rcases List.mem_cons.1 he1 with h | h
        · exact ⟨h ▸ hs1, h ▸ hn1⟩
        · exact absurd ⟨e1, h, hs1, hn1⟩ hrest
      have hnone : ∀ e2 ∈ rest, ¬(e2.service = s ∧ e2.node = n) :=
        fun e2 h2 hx => hrest ⟨e2, h2, hx⟩
      obtain ⟨h1, h2⟩ :=
        processEntries_untouched rest (processEntry st m e).1
          (processEntry st m e).2 s n hnone
      have hq : ((s, n) : String × String) = (e.service, e.node) := by
        rw [hpair.1, hpair.2]
      have hkey : s ++ "-" ++ n = e.service ++ "-" ++ e.node := by
        rw [hpair.1, hpair.2]
      rw [h1, h2, processEntry_gauge_total, processEntry_gauge_healthy,
        if_pos hq, if_pos hq]
      have hcp : countPair (e :: rest) s n = 1 := by
        simp [countPair, if_pos hpair, countPair_eq_zero rest s n hnone]
      have hcpp0 := countPairPassing_eq_zero rest s n hnone
      constructor
      · rw [hcp, ← hkey]
      · by_cases hp : computePassing e.checks = 1
        · have : countPairPassing (e :: rest) s n = 1 := by
            simp [countPairPassing, hpair.1, hpair.2, hp, hcpp0]
          rw [this, if_pos hp, ← hkey]
        · have : countPairPassing (e :: rest) s n = 0 := by
            have hx : ¬(e.service = s ∧ e.node = n ∧ computePassing e.checks = 1) := by
              intro hy; exact hp hy.2.2
            simp [countPairPassing, if_neg hx, hcpp0]
          rw [this, if_neg hp, ← hkey, Nat.add_zero]

/-- Without any injectivity assumption, the two entry-count gauges are
always set simultaneously from the same concatenated key, so the
healthy-count value never exceeds the total value. -/
theorem processEntries_le (b : List ServiceEntry) :
    ∀ (st : Exporter) (m : BatchMaps),
    (∀ k, m.healthy k ≤ m.total k) →
    ∀ s n, (∃ e ∈ b, e.service = s ∧ e.node = n) →
    ∃ h t : ℕ,
      (processEntries st m b).serviceEntriesNodesHealthy (s, n) = some (h : ℚ)
      ∧ (processEntries st m b).serviceEntriesNodesTotal (s, n) = some (t : ℚ)
      ∧ h ≤ t := by
  induction b with
  | nil => intro st m _ s n hocc; simp at hocc
  | cons e rest ih =>
    intro st m hm s n hocc
    rw [processEntries_cons]
    have hm2 : ∀ k, (processEntry st m e).2.healthy k
        ≤ (processEntry st m e).2.total k := by
      intro k
      rw [processEntry_total_map, processEntry_healthy_map]
      by_cases hp : computePassing e.checks = 1
      · rw [if_pos hp]
        by_cases hk : k = e.service ++ "-" ++ e.node
        · rw [if_pos hk, if_pos hk]; exact Nat.succ_le_succ (hm _)
        · rw [if_neg hk, if_neg hk]; exact hm k
      · rw [if_neg hp]
        by_cases hk : k = e.service ++ "-" ++ e.node
        · rw [if_pos hk]; exact le_trans (hm k) (hk ▸ Nat.le_succ _)
        · rw [if_neg hk]; exact hm k
    by_cases hrest : ∃ e2 ∈ rest, e2.service = s ∧ e2.node = n
    · exact ih (processEntry st m e).1 (processEntry st m e).2 hm2 s n hrest
    · obtain ⟨e1, he1, hs1, hn1⟩ := hocc
      have hpair : e.service = s ∧ e.node = n := by
        rcases List.mem_cons.1 he1 with h | h
        · exact ⟨h ▸ hs1, h ▸ hn1⟩
        · exact absurd ⟨e1, h, hs1, hn1⟩ hrest
      have hnone : ∀ e2 ∈ rest, ¬(e2.service = s ∧ e2.node = n) :=
        fun e2 h2 hx => hrest ⟨e2, h2, hx⟩
      obtain ⟨h1, h2⟩ :=
        processEntries_untouched rest (processEntry st m e).1
          (processEntry st m e).2 s n hnone
      have hq : ((s, n) : String × String) = (e.service, e.node) := by
        rw [hpair.1, hpair.2]
      rw [h1, h2, processEntry_gauge_total, processEntry_gauge_healthy,
        if_pos hq, if_pos hq]
      by_cases hp : computePassing e.checks = 1
      · exact ⟨m.healthy (e.service ++ "-" ++ e.node) + 1,
          m.total (e.service ++ "-" ++ e.node) + 1,
          by rw [if_pos hp], rfl, Nat.succ_le_succ (hm _)⟩
      · exact ⟨m.healthy (e.service ++ "-" ++ e.node),
          m.total (e.service ++ "-" ++ e.node) + 1,
          by rw [if_neg hp], rfl, le_trans (hm _) (Nat.le_succ _)⟩

/-- C2, amended: within one service batch the running sums are keyed by
the service-hyphen-node concatenation; at every (service,node) pair
observed in the batch both entry-count gauges are set with
healthy-count ≤ total, and when the concatenation is injective on the
batch the total gauge equals the number of entries with that pair and the
healthy gauge the number of those that are fully passing. -/
theorem c2_entry_counts (st : Exporter) (batch : List ServiceEntry)
    (s n : String) (hmem : ∃ e ∈ batch, e.service = s ∧ e.node = n) :
    (∃ h t : ℕ,
        (processServiceBatch st batch).serviceEntriesNodesHealthy (s, n)
            = some (h : ℚ)
          ∧ (processServiceBatch st batch).serviceEntriesNodesTotal (s, n)
            = some (t : ℚ)
          ∧ h ≤ t)
      ∧ (ConcatInj batch →
          (processServiceBatch st batch).serviceEntriesNodesTotal (s, n)
              = some ((countPair batch s n : ℕ) : ℚ)
            ∧ (processServiceBatch st batch).serviceEntriesNodesHealthy (s, n)
              = some ((countPairPassing batch s n : ℕ) : ℚ)) := by
  cases batch with
  | nil => simp at hmem
  | cons e0 rest =>
    constructor
    · exact processEntries_le (e0 :: rest) _ M0 (fun _ => le_refl 0) s n hmem
    · intro hinj
      rw [processServiceBatch_cons]
      have h := processEntries_inj_counts (e0 :: rest)
        { st with
            serviceNodesTotal :=
              gset st.serviceNodesTotal e0.service (((e0 :: rest).length : ℕ) : ℚ) }
        M0 s n hinj hmem
      simpa [M0] using h

/-- Witness for C2 on the spec's example batch: service web on nodes a
(all checks passing) and b (one critical check). -/
theorem c2_entry_counts_witness :
    (processServiceBatch E0
        [⟨"web", "a", [⟨"a", "chk1", "web", "passing"⟩]⟩,
         ⟨"web", "b", [⟨"b", "chk1", "web", "critical"⟩]⟩]).serviceEntriesNodesTotal
          ("web", "a")
      = some ((countPair
          [⟨"web", "a", [⟨"a", "chk1", "web", "passing"⟩]⟩,
           ⟨"web", "b", [⟨"b", "chk1", "web", "critical"⟩]⟩] "web" "a" : ℕ) : ℚ) :=
  ((c2_entry_counts E0
      [⟨"web", "a", [⟨"a", "chk1", "web", "passing"⟩]⟩,
       ⟨"web", "b", [⟨"b", "chk1", "web", "critical"⟩]⟩] "web" "a"
      (by decide)).2 (by decide)).1

/-- C2, counterexample: in the batch holding entries ("a-b", "c") and
("a", "b-c"), whose concatenated keys coincide, the entry-total gauge for
("a", "b-c") ends at 2 although only one entry of the batch has that
(service,node) key. -/
theorem c2_counterexample :
    (processServiceBatch E0
        [⟨"a-b", "c", []⟩, ⟨"a", "b-c", []⟩]).serviceEntriesNodesTotal
          ("a", "b-c") = some 2
      ∧ countPair [⟨"a-b", "c", []⟩, ⟨"a", "b-c", []⟩] "a" "b-c" = 1
      ∧ (2 : ℚ) ≠ ((1 : ℕ) : ℚ) := by
  refine ⟨?_, by decide, by norm_num⟩
  decide

/-- C10: the running sums are keyed by the service-hyphen-node
concatenation and freshly allocated per batch: the two distinct pairs
("a-b","c") and ("a","b-c") have equal concatenations and share one
running sum (the second entry's total gauge reads 2 though each pair
occurs once), and reprocessing the same batch from the resulting state
still yields 2, not 4. -/
theorem c10_concat_key_collision :
    (("a-b", "c") : String × String) ≠ ("a", "b-c")
      ∧ "a-b" ++ "-" ++ "c" = "a" ++ "-" ++ "b-c"
      ∧ (processServiceBatch E0
          [⟨"a-b", "c", []⟩, ⟨"a", "b-c", []⟩]).serviceEntriesNodesTotal
            ("a", "b-c") = some 2
      ∧ (processServiceBatch E0
          [⟨"a-b", "c", []⟩, ⟨"a", "b-c", []⟩]).serviceEntriesNodesTotal
            ("a-b", "c") = some 1
      ∧ countPair [⟨"a-b", "c", []⟩, ⟨"a", "b-c", []⟩] "a" "b-c" = 1
      ∧ countPair [⟨"a-b", "c", []⟩, ⟨"a", "b-c", []⟩] "a-b" "c" = 1
      ∧ (processServiceBatch
          (processServiceBatch E0 [⟨"a-b", "c", []⟩, ⟨"a", "b-c", []⟩])
          [⟨"a-b", "c", []⟩, ⟨"a", "b-c", []⟩]).serviceEntriesNodesTotal
            ("a", "b-c") = some 2 := by
  refine ⟨by decide, by decide, by decide, by decide, by decide, by decide, by decide⟩

/-! ## C3: the two streams may interleave arbitrarily -/

/-- Whether a received value came from the services stream. -/
def isSvcMsg : Msg → Bool
  | .svc _ => true
  | .chk _ => false

/-- Whether a received value came from the checks stream. -/
def isChkMsg : Msg → Bool
  | .svc _ => false
  | .chk _ => true

theorem processEntries_nodeChecks (b : List ServiceEntry) :
    ∀ (st : Exporter) (m : BatchMaps),
    (processEntries st m b).nodeChecks = st.nodeChecks := by
  induction b with
  | nil => intro st m; rfl
  | cons e rest ih => intro st m; rw [processEntries_cons, ih]; rfl

theorem processEntries_keyValues (b : List ServiceEntry) :
    ∀ (st : Exporter) (m : BatchMaps),
    (processEntries st m b).keyValues = st.keyValues := by
  induction b with
  | nil => intro st m; rfl
  | cons e rest ih => intro st m; rw [processEntries_cons, ih]; rfl

theorem processServiceBatch_nodeChecks (st : Exporter)
    (b : List ServiceEntry) :
    (processServiceBatch st b).nodeChecks = st.nodeChecks := by
  cases b with
  | nil => rfl
  | cons e0 rest => rw [processServiceBatch_cons, processEntries_nodeChecks]

theorem processChecksBatch_serviceFields (b : List HealthCheck) :
    ∀ st : Exporter,
    (processChecksBatch st b).serviceNodesTotal = st.serviceNodesTotal
      ∧ (processChecksBatch st b).serviceNodesHealthy = st.serviceNodesHealthy
      ∧ (processChecksBatch st b).serviceEntriesNodesTotal
        = st.serviceEntriesNodesTotal
      ∧ (processChecksBatch st b).serviceEntriesNodesHealthy
        = st.serviceEntriesNodesHealthy
      ∧ (processChecksBatch st b).keyValues = st.keyValues := by
  induction b with
  | nil => intro st; exact ⟨rfl, rfl, rfl, rfl, rfl⟩
  | cons hc rest ih =>
    intro st
    by_cases h : hc.serviceID = "" <;>
      simpa [processChecksBatch, h] using ih _

theorem processChecksBatch_congr (b : List HealthCheck) :
    ∀ st st' : Exporter, st.nodeChecks = st'.nodeChecks →
    (processChecksBatch st b).nodeChecks
      = (processChecksBatch st' b).nodeChecks := by
  induction b with
  | nil => intro st st' h; exact h
  | cons hc rest ih =>
    intro st st' h
    by_cases hs : hc.serviceID = ""
    · simp only [processChecksBatch, if_pos hs]
      exact ih _ _ (by rw [h])
    · simp only [processChecksBatch, if_neg hs]
      exact ih _ _ h

theorem processEntries_svc_congr (b : List ServiceEntry) :
    ∀ (st st' : Exporter) (m : BatchMaps),
    st.serviceNodesTotal = st'.serviceNodesTotal →
    st.serviceNodesHealthy = st'.serviceNodesHealthy →
    st.serviceEntriesNodesTotal = st'.serviceEntriesNodesTotal →
    st.serviceEntriesNodesHealthy = st'.serviceEntriesNodesHealthy →
    (processEntries st m b).serviceNodesTotal
        = (processEntries st' m b).serviceNodesTotal
      ∧ (processEntries st m b).serviceNodesHealthy
        = (processEntries st' m b).serviceNodesHealthy
      ∧ (processEntries st m b).serviceEntriesNodesTotal
        = (processEntries st' m b).serviceEntriesNodesTotal
      ∧ (processEntries st m b).serviceEntriesNodesHealthy
        = (processEntries st' m b).serviceEntriesNodesHealthy := by
  induction b with
  | nil => intro st st' m h1 h2 h3 h4; exact ⟨h1, h2, h3, h4⟩
  | cons e rest ih =>
    intro st st' m h1 h2 h3 h4
    rw [processEntries_cons, processEntries_cons]
    have hmaps : (processEntry st m e).2 = (processEntry st' m e).2 := rfl
    rw [hmaps]
    exact ih (processEntry st m e).1 (processEntry st' m e).1
      (processEntry st' m e).2
      (by simp [processEntry, h1]) (by simp [processEntry, gset, h2])
      (by simp [processEntry, gset, h3]) (by simp [processEntry, gset, h4])

theorem processServiceBatch_svc_congr (b : List ServiceEntry)
    (st st' : Exporter)
    (h1 : st.serviceNodesTotal = st'.serviceNodesTotal)
    (h2 : st.serviceNodesHealthy = st'.serviceNodesHealthy)
    (h3 : st.serviceEntriesNodesTotal = st'.serviceEntriesNodesTotal)
    (h4 : st.serviceEntriesNodesHealthy = st'.serviceEntriesNodesHealthy) :
    (processServiceBatch st b).serviceNodesTotal
        = (processServiceBatch st' b).serviceNodesTotal
      ∧ (processServiceBatch st b).serviceNodesHealthy
        = (processServiceBatch st' b).serviceNodesHealthy
      ∧ (processServiceBatch st b).serviceEntriesNodesTotal
        = (processServiceBatch st' b).serviceEntriesNodesTotal
      ∧ (processServiceBatch st b).serviceEntriesNodesHealthy
        = (processServiceBatch st' b).serviceEntriesNodesHealthy := by
  cases b with
  | nil => exact ⟨h1, h2, h3, h4⟩
  | cons e0 rest =>
    rw [processServiceBatch_cons, processServiceBatch_cons]
    exact processEntries_svc_congr (e0 :: rest) _ _ M0
      (by simp [gset, h1]) h2 h3 h4

theorem setMetrics_chk_proj (msgs : List Msg) :
    ∀ st st' : Exporter, st.nodeChecks = st'.nodeChecks →
    (setMetrics st msgs).nodeChecks
      = (setMetrics st' (msgs.filter isChkMsg)).nodeChecks := by
  induction msgs with
  | nil => intro st st' h; exact h
  | cons m rest ih =>
    intro st st' h
    cases m with
    | svc b =>
      simp only [setMetrics, processMsg, List.filter, isSvcMsg, isChkMsg]
      exact ih _ _ (by rw [processServiceBatch_nodeChecks, h])
    | chk b =>
      simp only [setMetrics, processMsg, List.filter, isSvcMsg, isChkMsg]
      exact ih _ _ (processChecksBatch_congr b st st' h)

theorem setMetrics_svc_proj (msgs : List Msg) :
    ∀ st st' : Exporter,
    st.serviceNodesTotal = st'.serviceNodesTotal →
    st.serviceNodesHealthy = st'.serviceNodesHealthy →
    st.serviceEntriesNodesTotal = st'.serviceEntriesNodesTotal →
    st.serviceEntriesNodesHealthy = st'.serviceEntriesNodesHealthy →
    (setMetrics st msgs).serviceNodesTotal
        = (setMetrics st' (msgs.filter isSvcMsg)).serviceNodesTotal
      ∧ (setMetrics st msgs).serviceNodesHealthy
        = (setMetrics st' (msgs.filter isSvcMsg)).serviceNodesHealthy
      ∧ (setMetrics st msgs).serviceEntriesNodesTotal
        = (setMetrics st' (msgs.filter isSvcMsg)).serviceEntriesNodesTotal
      ∧ (setMetrics st msgs).serviceEntriesNodesHealthy
        = (setMetrics st' (msgs.filter isSvcMsg)).serviceEntriesNodesHealthy := by
  induction msgs with
  | nil => intro st st' h1 h2 h3 h4; exact ⟨h1, h2, h3, h4⟩
  | cons m rest ih =>
    intro st st' h1 h2 h3 h4
    cases m with
    | svc b =>
      simp only [setMetrics, processMsg, List.filter, isSvcMsg]
      obtain ⟨g1, g2, g3, g4⟩ := processServiceBatch_svc_congr b st st' h1 h2 h3 h4
      exact ih _ _ g1 g2 g3 g4
    | chk b =>
      simp only [setMetrics, processMsg, List.filter, isSvcMsg]
      obtain ⟨p1, p2, p3, p4, _⟩ := processChecksBatch_serviceFields b st
      exact ih _ _ (p1.trans h1) (p2.trans h2) (p3.trans h3) (p4.trans h4)

theorem setMetrics_append (a : List Msg) :
    ∀ (st : Exporter) (b : List Msg),
    setMetrics st (a ++ b) = setMetrics (setMetrics st a) b := by
  induction a with
  | nil => intro st b; rfl
  | cons m rest ih => intro st b; simp only [List.cons_append, setMetrics]; exact ih _ b

/-- C3: the aggregator drains the two streams in whatever interleaving
the values arrive — the check-gauge outcome equals processing exactly the
checks-stream values in order, and the four service-gauge outcomes equal
processing exactly the services-stream values in order, so every value of
either stream is consumed and reflected; draining a longer stream simply
continues from the state reached so far (the recursion is structural, so
the loop terminates exactly when both streams are exhausted/closed). -/
theorem c3_interleaving (st : Exporter) (msgs : List Msg) :
    (setMetrics st msgs).nodeChecks
        = (setMetrics st (msgs.filter isChkMsg)).nodeChecks
      ∧ (setMetrics st msgs).serviceNodesTotal
        = (setMetrics st (msgs.filter isSvcMsg)).serviceNodesTotal
      ∧ (setMetrics st msgs).serviceNodesHealthy
        = (setMetrics st (msgs.filter isSvcMsg)).serviceNodesHealthy
      ∧ (setMetrics st msgs).serviceEntriesNodesTotal
        = (setMetrics st (msgs.filter isSvcMsg)).serviceEntriesNodesTotal
      ∧ (setMetrics st msgs).serviceEntriesNodesHealthy
        = (setMetrics st (msgs.filter isSvcMsg)).serviceEntriesNodesHealthy
      ∧ ∀ more, setMetrics st (msgs ++ more)
        = setMetrics (setMetrics st msgs) more := by
  obtain ⟨s1, s2, s3, s4⟩ := setMetrics_svc_proj msgs st st rfl rfl rfl rfl
  exact ⟨setMetrics_chk_proj msgs st st rfl, s1, s2, s3, s4,
    fun more => setMetrics_append msgs st more⟩

/-! ## The key/value stage touches only the key/value gauge -/

theorem setKVPairs_fields (filter : String → Bool)
    (parse : String → Option ℚ) (l : List KVPair) :
    ∀ st : Exporter,
    (setKVPairs filter parse st l).up = st.up
      ∧ (setKVPairs filter parse st l).clusterServers = st.clusterServers
      ∧ (setKVPairs filter parse st l).nodeCount = st.nodeCount
      ∧ (setKVPairs filter parse st l).serviceCount = st.serviceCount
      ∧ (setKVPairs filter parse st l).serviceNodesTotal = st.serviceNodesTotal
      ∧ (setKVPairs filter parse st l).serviceNodesHealthy
        = st.serviceNodesHealthy
      ∧ (setKVPairs filter parse st l).serviceEntriesNodesTotal
        = st.serviceEntriesNodesTotal
      ∧ (setKVPairs filter parse st l).serviceEntriesNodesHealthy
        = st.serviceEntriesNodesHealthy
      ∧ (setKVPairs filter parse st l).nodeChecks = st.nodeChecks := by
  induction l with
  | nil =>
    intro st
    exact ⟨rfl, rfl, rfl, rfl, rfl, rfl, rfl, rfl, rfl⟩
  | cons p rest ih =>
    intro st
    by_cases hf : filter p.key
    · cases hp : parse p.value with
      | some v => simpa [setKVPairs, kvStep, hf, hp] using ih _
      | none => simpa [setKVPairs, kvStep, hf, hp] using ih _
    · simpa [setKVPairs, kvStep, hf] using ih _

theorem setKeyValues_fields (cfg : Config) (parse : String → Option ℚ)
    (c : Client) (st : Exporter) :
    (setKeyValues cfg parse c st).up = st.up
      ∧ (setKeyValues cfg parse c st).clusterServers = st.clusterServers
      ∧ (setKeyValues cfg parse c st).nodeCount = st.nodeCount
      ∧ (setKeyValues cfg parse c st).serviceCount = st.serviceCount
      ∧ (setKeyValues cfg parse c st).serviceNodesTotal = st.serviceNodesTotal
      ∧ (setKeyValues cfg parse c st).serviceNodesHealthy
        = st.serviceNodesHealthy
      ∧ (setKeyValues cfg parse c st).serviceEntriesNodesTotal
        = st.serviceEntriesNodesTotal
      ∧ (setKeyValues cfg parse c st).serviceEntriesNodesHealthy
        = st.serviceEntriesNodesHealthy
      ∧ (setKeyValues cfg parse c st).nodeChecks = st.nodeChecks := by
  by_cases hpre : cfg.kvPref = ""
  · simp [setKeyValues, hpre]
  · by_cases herr : (c.kvList cfg.kvPref).err
    · simp [setKeyValues, hpre, herr]
    · simpa [setKeyValues, hpre, herr] using
        setKVPairs_fields cfg.kvFilter parse (c.kvList cfg.kvPref).val st

/-- C4: a failed peer query sets the availability gauge to 0, leaves the
other scalars untouched, issues no further backend query, sends nothing on
either stream (both are closed by the returned, hence ended, lists), and
leaves every per-service and per-check gauge of the finished cycle
unpopulated. -/
theorem c4_peer_failure (cfg : Config) (parse : String → Option ℚ)
    (c : Client) (st : Exporter) (h : c.peers.err = true) :
    queryClient c st = ⟨{ st with up := 0 }, [], [], ["peers"]⟩
      ∧ (collect cfg parse c st).up = 0
      ∧ (∀ s, (collect cfg parse c st).serviceNodesTotal s = none)
      ∧ (∀ q, (collect cfg parse c st).serviceNodesHealthy q = none)
      ∧ (∀ q, (collect cfg parse c st).serviceEntriesNodesTotal q = none)
      ∧ (∀ q, (collect cfg parse c st).serviceEntriesNodesHealthy q = none)
      ∧ (∀ q, (collect cfg parse c st).nodeChecks q = none) := by
  have hq : queryClient c st = ⟨{ st with up := 0 }, [], [], ["peers"]⟩ := by
    simp [queryClient, h]
  have hcol : collect cfg parse c st
      = setKeyValues cfg parse c
          { resetHealthVectors { st with up := 0 } with
              keyValues := fun _ => none } := by
    simp only [collect, hq, List.map_nil, List.nil_append, setMetrics]
  obtain ⟨f1, _, _, _, f5, f6, f7, f8, f9⟩ :=
    setKeyValues_fields cfg parse c
      { resetHealthVectors { st with up := 0 } with keyValues := fun _ => none }
  rw [hcol]
  refine ⟨hq, ?_, ?_, ?_, ?_, ?_, ?_⟩
  · rw [f1]; rfl
  · intro s; rw [f5]; rfl
  · intro q; rw [f6]; rfl
  · intro q; rw [f7]; rfl
  · intro q; rw [f8]; rfl
  · intro q; rw [f9]; rfl

/-- A client whose peer query fails. -/
def cPeersFail : Client :=
  ⟨⟨[], true⟩, ⟨[], false⟩, ⟨["web"], false⟩,
    fun _ => ⟨[], false⟩, ⟨[], false⟩, fun _ => ⟨[], false⟩⟩

/-- Witness for C4 on a concrete failing client. -/
theorem c4_peer_failure_witness :
    (collect ⟨"", fun _ => true⟩ (fun _ => none) cPeersFail E0).up = 0
      ∧ (collect ⟨"", fun _ => true⟩ (fun _ => none) cPeersFail
          E0).serviceNodesHealthy ("web", "a") = none :=
  ⟨(c4_peer_failure ⟨"", fun _ => true⟩ (fun _ => none) cPeersFail E0
      rfl).2.1,
    (c4_peer_failure ⟨"", fun _ => true⟩ (fun _ => none) cPeersFail E0
      rfl).2.2.2.1 ("web", "a")⟩

/-- C7: with the peer query succeeding, the service-count gauge is set to
the length of the returned service-name list whether or not the query also
reported an error; on a service-name error nothing is sent on either
stream (all remaining per-service work is aborted). -/
theorem c7_count_before_error_check (c : Client) (st : Exporter)
    (hp : c.peers.err = false) :
    (queryClient c st).ex.serviceCount = ((c.services.val.length : ℕ) : ℚ)
      ∧ (c.services.err = true →
          (queryClient c st).svcMsgs = [] ∧ (queryClient c st).chkMsgs = []) := by
  by_cases hn : c.nodes.err <;> by_cases hs : c.services.err <;>
    simp [queryClient, hp, hn, hs]

/-- A client whose service-name query errors while still returning two
names. -/
def cSvcErr : Client :=
  ⟨⟨["p1"], false⟩, ⟨[], false⟩, ⟨["s1", "s2"], true⟩,
    fun _ => ⟨[], false⟩, ⟨[], false⟩, fun _ => ⟨[], false⟩⟩

/-- Witness for C7: the count 2 is recorded though the query errored, and
both streams stay empty. -/
theorem c7_count_before_error_check_witness :
    (queryClient cSvcErr E0).ex.serviceCount = ((2 : ℕ) : ℚ)
      ∧ (queryClient cSvcErr E0).svcMsgs = []
      ∧ (queryClient cSvcErr E0).chkMsgs = [] := by
  obtain ⟨h1, h2⟩ := c7_count_before_error_check cSvcErr E0 rfl
  exact ⟨h1, h2 rfl⟩

/-! ## C8: per-service failure isolation -/

theorem serviceBatches_skip (c : Client) (bad : String)
    (hbad : (c.health bad).err = true) :
    ∀ pre post : List String,
    serviceBatches c (pre ++ bad :: post)
      = serviceBatches c pre ++ serviceBatches c post := by
  intro pre
  induction pre with
  | nil => intro post; simp [serviceBatches, hbad]
  | cons s rest ih =>
    intro post
    by_cases hs : (c.health s).err <;>
      simp [serviceBatches, hs, ih post]

theorem serviceBatches_mem (c : Client) :
    ∀ (names : List String) (s : String), s ∈ names →
    (c.health s).err = false → (c.health s).val ∈ serviceBatches c names := by
  intro names
  induction names with
  | nil => intro s h; cases h
  | cons x rest ih =>
    intro s hmem hok
    rcases List.mem_cons.1 hmem with h | h
    · subst h
      simp [serviceBatches, hok]
    · by_cases hx : (c.health x).err <;>
        simp [serviceBatches, hx, ih s h hok]

theorem queryClient_svcMsgs (c : Client) (st : Exporter)
    (hp : c.peers.err = false) (hs : c.services.err = false) :
    (queryClient c st).svcMsgs = serviceBatches c c.services.val
      ∧ (queryClient c st).queries
        = ["peers", "nodes", "services"]
            ++ c.services.val.map (fun s => "health " ++ s) ++ ["state"] := by
  by_cases hn : c.nodes.err <;> simp [queryClient, hp, hn, hs]

theorem processEntries_serviceNodesTotal (b : List ServiceEntry) :
    ∀ (st : Exporter) (m : BatchMaps),
    (processEntries st m b).serviceNodesTotal = st.serviceNodesTotal := by
  induction b with
  | nil => intro st m; rfl
  | cons e rest ih => intro st m; rw [processEntries_cons, ih]; rfl

theorem processMsg_snt_mono (m : Msg) (st : Exporter) (s : String)
    (h : st.serviceNodesTotal s ≠ none) :
    (processMsg st m).serviceNodesTotal s ≠ none := by
  cases m with
  | svc b =>
    cases b with
    | nil => exact h
    | cons e0 rest =>
      show (processServiceBatch st (e0 :: rest)).serviceNodesTotal s ≠ none
      rw [processServiceBatch_cons, processEntries_serviceNodesTotal]
      by_cases hk : s = e0.service
      · simp [gset, hk]
      · simpa [gset, hk] using h
  | chk b =>
    show (processChecksBatch st b).serviceNodesTotal s ≠ none
    rw [(processChecksBatch_serviceFields b st).1]
    exact h

theorem setMetrics_snt_mono (msgs : List Msg) :
    ∀ (st : Exporter) (s : String), st.serviceNodesTotal s ≠ none →
    (setMetrics st msgs).serviceNodesTotal s ≠ none := by
  induction msgs with
  | nil => intro st s h; exact h
  | cons m rest ih =>
    intro st s h
    exact ih _ s (processMsg_snt_mono m st s h)

theorem setMetrics_populates (msgs : List Msg) :
    ∀ (st : Exporter) (e : ServiceEntry) (b : List ServiceEntry),
    Msg.svc (e :: b) ∈ msgs →
    (setMetrics st msgs).serviceNodesTotal e.service ≠ none := by
  induction msgs with
  | nil => intro st e b h; cases h
  | cons m rest ih =>
    intro st e b hmem
    rcases List.mem_cons.1 hmem with h | h
    · subst h
      show (setMetrics (processMsg st (Msg.svc (e :: b)))
        rest).serviceNodesTotal e.service ≠ none
      apply setMetrics_snt_mono
      show (processServiceBatch st (e :: b)).serviceNodesTotal e.service ≠ none
      rw [processServiceBatch_cons, processEntries_serviceNodesTotal]
      simp [gset]
    · exact ih _ e b h

/-- C8: with peers and the service-name list obtained, a failed health
query for one service only skips that service: the services stream is the
concatenation of the batches of the services before and after it, a health
query is issued for every listed service, every other successfully queried
service's batch is pushed onto the stream, and the per-service node-count
gauge of any such nonempty batch is populated in the finished cycle. -/
theorem c8_failure_isolation (cfg : Config) (parse : String → Option ℚ)
    (c : Client) (st : Exporter) (pre post : List String) (bad : String)
    (hp : c.peers.err = false) (hs : c.services.err = false)
    (hnames : c.services.val = pre ++ bad :: post)
    (hbad : (c.health bad).err = true) :
    (queryClient c st).svcMsgs = serviceBatches c pre ++ serviceBatches c post
      ∧ (∀ s ∈ c.services.val,
          ("health " ++ s) ∈ (queryClient c st).queries)
      ∧ (∀ s, (s ∈ pre ∨ s ∈ post) → (c.health s).err = false →
          (c.health s).val ∈ (queryClient c st).svcMsgs)
      ∧ (∀ s, (s ∈ pre ∨ s ∈ post) → (c.health s).err = false →
          ∀ e rest2, (c.health s).val = e :: rest2 →
          (collect cfg parse c st).serviceNodesTotal e.service ≠ none) := by
  obtain ⟨hmsgs, hqs⟩ := queryClient_svcMsgs c st hp hs
  have hsplit : (queryClient c st).svcMsgs
      = serviceBatches c pre ++ serviceBatches c post := by
    rw [hmsgs, hnames, serviceBatches_skip c bad hbad pre post]
  have hmemnames : ∀ s, (s ∈ pre ∨ s ∈ post) → s ∈ c.services.val := by
    intro s h
    rw [hnames]
    rcases h with h | h
    · exact List.mem_append_left _ h
    · exact List.mem_append_right _ (List.mem_cons_of_mem _ h)
  have hstream : ∀ s, (s ∈ pre ∨ s ∈ post) → (c.health s).err = false →
      (c.health s).val ∈ (queryClient c st).svcMsgs := by
    intro s h hok
    rw [hmsgs]
    exact serviceBatches_mem c c.services.val s (hmemnames s h) hok
  refine ⟨hsplit, ?_, hstream, ?_⟩
  · intro s hsv
    rw [hqs]
    refine List.mem_append_left _ (List.mem_append_right _ ?_)
    exact List.mem_map_of_mem _ hsv
  · intro s h hok e rest2 hval
    have hbmem : Msg.svc (e :: rest2)
        ∈ (queryClient c st).svcMsgs.map Msg.svc ++
          (queryClient c st).chkMsgs.map Msg.chk := by
      refine List.mem_append_left _ ?_
      exact List.mem_map_of_mem _ (hval ▸ hstream s h hok)
    have hpop := setMetrics_populates _
      (resetHealthVectors (queryClient c st).ex) e rest2 hbmem
    have hf := (setKeyValues_fields cfg parse c
      { setMetrics (resetHealthVectors (queryClient c st).ex)
          ((queryClient c st).svcMsgs.map Msg.svc ++
            (queryClient c st).chkMsgs.map Msg.chk) with
          keyValues := fun _ => none }).2.2.2.2.1
    show (collect cfg parse c st).serviceNodesTotal e.service ≠ none
    simp only [collect]
    rw [hf]
    exact hpop

/-- A client listing three services where the middle health query fails. -/
def cMidFail : Client :=
  ⟨⟨["p1"], false⟩, ⟨["a"], false⟩, ⟨["s1", "bad", "s3"], false⟩,
    fun s =>
      if s = "bad" then ⟨[], true⟩
      else ⟨[⟨s, s ++ "-node", [] ⟩], false⟩,
    ⟨[], false⟩, fun _ => ⟨[], false⟩⟩

/-- Witness for C8: the service after the failing one still reaches the
stream and its node-count gauge is populated. -/
theorem c8_failure_isolation_witness :
    (cMidFail.health "s3").val ∈ (queryClient cMidFail E0).svcMsgs
      ∧ (collect ⟨"", fun _ => true⟩ (fun _ => none) cMidFail
          E0).serviceNodesTotal "s3" ≠ none := by
  have h := c8_failure_isolation ⟨"", fun _ => true⟩ (fun _ => none)
    cMidFail E0 ["s1"] ["s3"] "bad" rfl rfl rfl rfl
  refine ⟨h.2.2.1 "s3" (Or.inr (by decide)) rfl, ?_⟩
  have := h.2.2.2 "s3" (Or.inr (by decide)) rfl ⟨"s3", "s3-node", []⟩ [] rfl
  simpa using this

/-- C9: per key/value pair under the configured prefix: a matching,
parseable pair sets the gauge under the raw key to the parsed value; a
matching but unparseable pair changes nothing (and raises no error); a
non-matching pair changes nothing; and without a configured prefix the
whole stage is a no-op. -/
theorem c9_kv_stage (cfg : Config) (parse : String → Option ℚ)
    (c : Client) (st : Exporter) (pair : KVPair) (x : ℚ) :
    (cfg.kvPref = "" → setKeyValues cfg parse c st = st)
      ∧ (cfg.kvFilter pair.key = true → parse pair.value = some x →
          (kvStep cfg.kvFilter parse st pair).keyValues pair.key = some x)
      ∧ (cfg.kvFilter pair.key = true → parse pair.value = none →
          kvStep cfg.kvFilter parse st pair = st)
      ∧ (cfg.kvFilter pair.key = false →
          kvStep cfg.kvFilter parse st pair = st) := by
  refine ⟨?_, ?_, ?_, ?_⟩
  · intro h; simp [setKeyValues, h]
  · intro hf hp; simp [kvStep, hf, hp, gset]
  · intro hf hp; simp [kvStep, hf, hp]
  · intro hf; simp [kvStep, hf]

/-- The spec's model of `strconv.ParseFloat` on the two example inputs:
"12.5" parses to 12.5, anything else fails. -/
def parse125 : String → Option ℚ :=
  fun s => if s = "12.5" then some (25 / 2) else none

/-- Witness for C9: the value "12.5" under a matching key yields gauge
12.5; "abc" yields no entry; the empty prefix is a no-op. -/
theorem c9_kv_stage_witness :
    (kvStep (fun _ => true) parse125 E0 ⟨"k", "12.5"⟩).keyValues "k"
        = some (25 / 2)
      ∧ kvStep (fun _ => true) parse125 E0 ⟨"k2", "abc"⟩ = E0
      ∧ setKeyValues ⟨"", fun _ => true⟩ parse125 cSvcErr E0 = E0 :=
  ⟨(c9_kv_stage ⟨"", fun _ => true⟩ parse125 cSvcErr E0 ⟨"k", "12.5"⟩
      (25 / 2)).2.1 rfl rfl,
    (c9_kv_stage ⟨"", fun _ => true⟩ parse125 cSvcErr E0 ⟨"k2", "abc"⟩
      (25 / 2)).2.2.1 rfl rfl,
    (c9_kv_stage ⟨"", fun _ => true⟩ parse125 cSvcErr E0 ⟨"k2", "abc"⟩
      (25 / 2)).1 rfl⟩

/-! ## C6: reset-before-rebuild, no stale labels -/

theorem processEntry_gauge_flag (st : Exporter) (m : BatchMaps)
    (e : ServiceEntry) (q : String × String) :
    (processEntry st m e).1.serviceNodesHealthy q
      = if q = (e.service, e.node) then
          some ((computePassing e.checks : ℕ) : ℚ)
        else st.serviceNodesHealthy q := rfl

theorem processEntries_dom_snh (b : List ServiceEntry) :
    ∀ (st : Exporter) (m : BatchMaps) (q : String × String),
    (processEntries st m b).serviceNodesHealthy q ≠ none →
    st.serviceNodesHealthy q ≠ none ∨ ∃ e ∈ b, (e.service, e.node) = q := by
  induction b with
  | nil => intro st m q h; exact Or.inl h
  | cons e rest ih =>
    intro st m q h
    rw [processEntries_cons] at h
    rcases ih _ _ q h with h1 | ⟨e2, hm, he⟩
    · by_cases hq : q = (e.service, e.node)
      · exact Or.inr ⟨e, List.mem_cons_self e rest, hq.symm⟩
      · rw [processEntry_gauge_flag, if_neg hq] at h1
        exact Or.inl h1
    · exact Or.inr ⟨e2, List.mem_cons_of_mem _ hm, he⟩

theorem processEntries_dom_sent (b : List ServiceEntry) :
    ∀ (st : Exporter) (m : BatchMaps) (q : String × String),
    (processEntries st m b).serviceEntriesNodesTotal q ≠ none →
    st.serviceEntriesNodesTotal q ≠ none ∨ ∃ e ∈ b, (e.service, e.node) = q := by
  induction b with
  | nil => intro st m q h; exact Or.inl h
  | cons e rest ih =>
    intro st m q h
    rw [processEntries_cons] at h
    rcases ih _ _ q h with h1 | ⟨e2, hm, he⟩
    · by_cases hq : q = (e.service, e.node)
      · exact Or.inr ⟨e, List.mem_cons_self e rest, hq.symm⟩
      · rw [processEntry_gauge_total, if_neg hq] at h1
        exact Or.inl h1
    · exact Or.inr ⟨e2, List.mem_cons_of_mem _ hm, he⟩

theorem processEntries_dom_senh (b : List ServiceEntry) :
    ∀ (st : Exporter) (m : BatchMaps) (q : String × String),
    (processEntries st m b).serviceEntriesNodesHealthy q ≠ none →
    st.serviceEntriesNodesHealthy q ≠ none ∨ ∃ e ∈ b, (e.service, e.node) = q := by
  induction b with
  | nil => intro st m q h; exact Or.inl h
  | cons e rest ih =>
    intro st m q h
    rw [processEntries_cons] at h
    rcases ih _ _ q h with h1 | ⟨e2, hm, he⟩
    · by_cases hq : q = (e.service, e.node)
      · exact Or.inr ⟨e, List.mem_cons_self e rest, hq.symm⟩
      · rw [processEntry_gauge_healthy, if_neg hq] at h1
        exact Or.inl h1
    · exact Or.inr ⟨e2, List.mem_cons_of_mem _ hm, he⟩

theorem processServiceBatch_dom_snh (st : Exporter) (b : List ServiceEntry)
    (q : String × String)
    (h : (processServiceBatch st b).serviceNodesHealthy q ≠ none) :
    st.serviceNodesHealthy q ≠ none ∨ ∃ e ∈ b, (e.service, e.node) = q := by
  cases b with
  | nil => exact Or.inl h
  | cons e0 rest =>
    rw [processServiceBatch_cons] at h
    rcases processEntries_dom_snh (e0 :: rest) _ M0 q h with h1 | hex
    · exact Or.inl h1
    · exact Or.inr hex

theorem processServiceBatch_dom_sent (st : Exporter) (b : List ServiceEntry)
    (q : String × String)
    (h : (processServiceBatch st b).serviceEntriesNodesTotal q ≠ none) :
    st.serviceEntriesNodesTotal q ≠ none ∨ ∃ e ∈ b, (e.service, e.node) = q := by
  cases b with
  | nil => exact Or.inl h
  | cons e0 rest =>
    rw [processServiceBatch_cons] at h
    rcases processEntries_dom_sent (e0 :: rest) _ M0 q h with h1 | hex
    · exact Or.inl h1
    · exact Or.inr hex

theorem processServiceBatch_dom_senh (st : Exporter) (b : List ServiceEntry)
    (q : String × String)
    (h : (processServiceBatch st b).serviceEntriesNodesHealthy q ≠ none) :
    st.serviceEntriesNodesHealthy q ≠ none ∨ ∃ e ∈ b, (e.service, e.node) = q := by
  cases b with
  | nil => exact Or.inl h
  | cons e0 rest =>
    rw [processServiceBatch_cons] at h
    rcases processEntries_dom_senh (e0 :: rest) _ M0 q h with h1 | hex
    · exact Or.inl h1
    · exact Or.inr hex

theorem processServiceBatch_dom_snt (st : Exporter) (b : List ServiceEntry)
    (s : String)
    (h : (processServiceBatch st b).serviceNodesTotal s ≠ none) :
    st.serviceNodesTotal s ≠ none
      ∨ ∃ e rest2, b = e :: rest2 ∧ e.service = s := by
  cases b with
  | nil => exact Or.inl h
  | cons e0 rest =>
    rw [processServiceBatch_cons, processEntries_serviceNodesTotal] at h
    have h2 : gset st.serviceNodesTotal e0.service
        (((e0 :: rest).length : ℕ) : ℚ) s ≠ none := h
    by_cases hk : s = e0.service
    · exact Or.inr ⟨e0, rest, rfl, hk.symm⟩
    · simp only [gset, if_neg hk] at h2
      exact Or.inl h2

theorem processChecksBatch_dom (b : List HealthCheck) :
    ∀ (st : Exporter) (q : String × String),
    (processChecksBatch st b).nodeChecks q ≠ none →
    st.nodeChecks q ≠ none
      ∨ ∃ hc ∈ b, hc.serviceID = "" ∧ (hc.checkID, hc.node) = q := by
  induction b with
  | nil => intro st q h; exact Or.inl h
  | cons hc rest ih =>
    intro st q h
    by_cases hs : hc.serviceID = ""
    · simp only [processChecksBatch, if_pos hs] at h
      rcases ih _ q h with h1 | ⟨hc2, hm, he⟩
      · by_cases hq : q = (hc.checkID, hc.node)
        · exact Or.inr ⟨hc, List.mem_cons_self hc rest, hs, hq.symm⟩
        · simp only [gset, if_neg hq] at h1
          exact Or.inl h1
      · exact Or.inr ⟨hc2, List.mem_cons_of_mem _ hm, he⟩
    · simp only [processChecksBatch, if_neg hs] at h
      rcases ih _ q h with h1 | ⟨hc2, hm, he⟩
      · exact Or.inl h1
      · exact Or.inr ⟨hc2, List.mem_cons_of_mem _ hm, he⟩

theorem setMetrics_dom_snh (msgs : List Msg) :
    ∀ (st : Exporter) (q : String × String),
    (setMetrics st msgs).serviceNodesHealthy q ≠ none →
    st.serviceNodesHealthy q ≠ none
      ∨ ∃ b, Msg.svc b ∈ msgs ∧ ∃ e ∈ b, (e.service, e.node) = q := by
  induction msgs with
  | nil => intro st q h; exact Or.inl h
  | cons m rest ih =>
    intro st q h
    cases m with
    | svc b =>
      rw [show setMetrics st (Msg.svc b :: rest)
          = setMetrics (processServiceBatch st b) rest from rfl] at h
      rcases ih _ q h with h1 | ⟨b2, hm, he⟩
      · rcases processServiceBatch_dom_snh st b q h1 with h2 | ⟨e, hm2, he2⟩
        · exact Or.inl h2
        · exact Or.inr ⟨b, List.mem_cons_self _ rest, e, hm2, he2⟩
      · exact Or.inr ⟨b2, List.mem_cons_of_mem _ hm, he⟩
    | chk b =>
      rw [show setMetrics st (Msg.chk b :: rest)
          = setMetrics (processChecksBatch st b) rest from rfl] at h
      rcases ih _ q h with h1 | ⟨b2, hm, he⟩
      · rw [(processChecksBatch_serviceFields b st).2.1] at h1
        exact Or.inl h1
      · exact Or.inr ⟨b2, List.mem_cons_of_mem _ hm, he⟩

theorem setMetrics_dom_sent (msgs : List Msg) :
    ∀ (st : Exporter) (q : String × String),
    (setMetrics st msgs).serviceEntriesNodesTotal q ≠ none →
    st.serviceEntriesNodesTotal q ≠ none
      ∨ ∃ b, Msg.svc b ∈ msgs ∧ ∃ e ∈ b, (e.service, e.node) = q := by
  induction msgs with
  | nil => intro st q h; exact Or.inl h
  | cons m rest ih =>
    intro st q h
    cases m with
    | svc b =>
      rw [show setMetrics st (Msg.svc b :: rest)
          = setMetrics (processServiceBatch st b) rest from rfl] at h
      rcases ih _ q h with h1 | ⟨b2, hm, he⟩
      · rcases processServiceBatch_dom_sent st b q h1 with h2 | ⟨e, hm2, he2⟩
        · exact Or.inl h2
        · exact Or.inr ⟨b, List.mem_cons_self _ rest, e, hm2, he2⟩
      · exact Or.inr ⟨b2, List.mem_cons_of_mem _ hm, he⟩
    | chk b =>
      rw [show setMetrics st (Msg.chk b :: rest)
          = setMetrics (processChecksBatch st b) rest from rfl] at h
      rcases ih _ q h with h1 | ⟨b2, hm, he⟩
      · rw [(processChecksBatch_serviceFields b st).2.2.1] at h1
        exact Or.inl h1
      · exact Or.inr ⟨b2, List.mem_cons_of_mem _ hm, he⟩

theorem setMetrics_dom_senh (msgs : List Msg) :
    ∀ (st : Exporter) (q : String × String),
    (setMetrics st msgs).serviceEntriesNodesHealthy q ≠ none →
    st.serviceEntriesNodesHealthy q ≠ none
      ∨ ∃ b, Msg.svc b ∈ msgs ∧ ∃ e ∈ b, (e.service, e.node) = q := by
  induction msgs with
  | nil => intro st q h; exact Or.inl h
  | cons m rest ih =>
    intro st q h
    cases m with
    | svc b =>
      rw [show setMetrics st (Msg.svc b :: rest)
          = setMetrics (processServiceBatch st b) rest from rfl] at h
      rcases ih _ q h with h1 | ⟨b2, hm, he⟩
      · rcases processServiceBatch_dom_senh st b q h1 with h2 | ⟨e, hm2, he2⟩
        · exact Or.inl h2
        · exact Or.inr ⟨b, List.mem_cons_self _ rest, e, hm2, he2⟩
      · exact Or.inr ⟨b2, List.mem_cons_of_mem _ hm, he⟩
    | chk b =>
      rw [show setMetrics st (Msg.chk b :: rest)
          = setMetrics (processChecksBatch st b) rest from rfl] at h
      rcases ih _ q h with h1 | ⟨b2, hm, he⟩
      · rw [(processChecksBatch_serviceFields b st).2.2.2.1] at h1
        exact Or.inl h1
      · exact Or.inr ⟨b2, List.mem_cons_of_mem _ hm, he⟩

theorem setMetrics_dom_snt (msgs : List Msg) :
    ∀ (st : Exporter) (s : String),
    (setMetrics st msgs).serviceNodesTotal s ≠ none →
    st.serviceNodesTotal s ≠ none
      ∨ ∃ b, Msg.svc b ∈ msgs ∧ ∃ e rest2, b = e :: rest2 ∧ e.service = s := by
  induction msgs with
  | nil => intro st s h; exact Or.inl h
  | cons m rest ih =>
    intro st s h
    cases m with
    | svc b =>
      rw [show setMetrics st (Msg.svc b :: rest)
          = setMetrics (processServiceBatch st b) rest from rfl] at h
      rcases ih _ s h with h1 | ⟨b2, hm, he⟩
      · rcases processServiceBatch_dom_snt st b s h1 with h2 | ⟨e, rest2, hb, he2⟩
        · exact Or.inl h2
        · exact Or.inr ⟨b, List.mem_cons_self _ rest, e, rest2, hb, he2⟩
      · exact Or.inr ⟨b2, List.mem_cons_of_mem _ hm, he⟩
    | chk b =>
      rw [show setMetrics st (Msg.chk b :: rest)
          = setMetrics (processChecksBatch st b) rest from rfl] at h
      rcases ih _ s h with h1 | ⟨b2, hm, he⟩
      · rw [(processChecksBatch_serviceFields b st).1] at h1
        exact Or.inl h1
      · exact Or.inr ⟨b2, List.mem_cons_of_mem _ hm, he⟩

theorem setMetrics_dom_nc (msgs : List Msg) :
    ∀ (st : Exporter) (q : String × String),
    (setMetrics st msgs).nodeChecks q ≠ none →
    st.nodeChecks q ≠ none
      ∨ ∃ b, Msg.chk b ∈ msgs
          ∧ ∃ hc ∈ b, hc.serviceID = "" ∧ (hc.checkID, hc.node) = q := by
  induction msgs with
  | nil => intro st q h; exact Or.inl h
  | cons m rest ih =>
    intro st q h
    cases m with
    | svc b =>
      rw [show setMetrics st (Msg.svc b :: rest)
          = setMetrics (processServiceBatch st b) rest from rfl] at h
      rcases ih _ q h with h1 | ⟨b2, hm, he⟩
      · rw [processServiceBatch_nodeChecks] at h1
        exact Or.inl h1
      · exact Or.inr ⟨b2, List.mem_cons_of_mem _ hm, he⟩
    | chk b =>
      rw [show setMetrics st (Msg.chk b :: rest)
          = setMetrics (processChecksBatch st b) rest from rfl] at h
      rcases ih _ q h with h1 | ⟨hc2, hm, he⟩
      · rcases processChecksBatch_dom b st q h1 with h2 | ⟨hc, hm2, he2⟩
        · exact Or.inl h2
        · exact Or.inr ⟨b, List.mem_cons_self _ rest, hc, hm2, he2⟩
      · exact Or.inr ⟨hc2, List.mem_cons_of_mem _ hm, he⟩

theorem setKVPairs_dom (filter : String → Bool) (parse : String → Option ℚ)
    (l : List KVPair) :
    ∀ (st : Exporter) (k : String),
    (setKVPairs filter parse st l).keyValues k ≠ none →
    st.keyValues k ≠ none
      ∨ ∃ pr ∈ l, pr.key = k ∧ filter k = true
          ∧ ∃ v, parse pr.value = some v := by
  induction l with
  | nil => intro st k h; exact Or.inl h
  | cons pr rest ih =>
    intro st k h
    rcases ih _ k h with h1 | ⟨pr2, hm, he⟩
    · by_cases hf : filter pr.key
      · cases hp : parse pr.value with
        | some v =>
          simp only [kvStep, if_pos hf, hp] at h1
          by_cases hk : k = pr.key
          · exact Or.inr ⟨pr, List.mem_cons_self pr rest, hk.symm,
              by rw [hk]; exact hf, v, hp⟩
          · simp only [gset, if_neg hk] at h1
            exact Or.inl h1
        | none =>
          simp only [kvStep, if_pos hf, hp] at h1
          exact Or.inl h1
      · simp only [kvStep, if_neg hf] at h1
        exact Or.inl h1
    · exact Or.inr ⟨pr2, List.mem_cons_of_mem _ hm, he⟩

theorem mem_svc_of_msgs (b : List ServiceEntry)
    (svcs : List (List ServiceEntry)) (chks : List (List HealthCheck))
    (h : Msg.svc b ∈ svcs.map Msg.svc ++ chks.map Msg.chk) : b ∈ svcs := by
  rcases List.mem_append.1 h with h | h
  · obtain ⟨b2, hm, he⟩ := List.mem_map.1 h
    injection he with he2
    exact he2 ▸ hm
  · obtain ⟨cb, _, he⟩ := List.mem_map.1 h
    exact Msg.noConfusion he

theorem mem_chk_of_msgs (b : List HealthCheck)
    (svcs : List (List ServiceEntry)) (chks : List (List HealthCheck))
    (h : Msg.chk b ∈ svcs.map Msg.svc ++ chks.map Msg.chk) : b ∈ chks := by
  rcases List.mem_append.1 h with h | h
  · obtain ⟨b2, _, he⟩ := List.mem_map.1 h
    exact Msg.noConfusion he
  · obtain ⟨cb, hm, he⟩ := List.mem_map.1 h
    injection he with he2
    exact he2 ▸ hm

/-- C6: every vector gauge family is cleared before it is rebuilt, so a
label combination present after a finished scrape comes from a batch that
scrape observed: the four service families trace back to a services-stream
batch, the check family to a checks-stream batch with an empty service id,
and the key/value family to a listed pair that matched the filter and
parsed; a zero-length service batch is a complete no-op. -/
theorem c6_no_stale_labels (cfg : Config) (parse : String → Option ℚ)
    (c : Client) (st : Exporter) :
    (∀ q, (collect cfg parse c st).serviceNodesHealthy q ≠ none →
        ∃ b ∈ (queryClient c st).svcMsgs, ∃ e ∈ b, (e.service, e.node) = q)
      ∧ (∀ q, (collect cfg parse c st).serviceEntriesNodesTotal q ≠ none →
          ∃ b ∈ (queryClient c st).svcMsgs, ∃ e ∈ b, (e.service, e.node) = q)
      ∧ (∀ q, (collect cfg parse c st).serviceEntriesNodesHealthy q ≠ none →
          ∃ b ∈ (queryClient c st).svcMsgs, ∃ e ∈ b, (e.service, e.node) = q)
      ∧ (∀ s, (collect cfg parse c st).serviceNodesTotal s ≠ none →
          ∃ b ∈ (queryClient c st).svcMsgs, ∃ e rest2,
            b = e :: rest2 ∧ e.service = s)
      ∧ (∀ q, (collect cfg parse c st).nodeChecks q ≠ none →
          ∃ b ∈ (queryClient c st).chkMsgs, ∃ hc ∈ b,
            hc.serviceID = "" ∧ (hc.checkID, hc.node) = q)
      ∧ (∀ k, (collect cfg parse c st).keyValues k ≠ none →
          cfg.kvPref ≠ "" ∧ (c.kvList cfg.kvPref).err = false
            ∧ ∃ pr ∈ (c.kvList cfg.kvPref).val,
                pr.key = k ∧ cfg.kvFilter k = true
                  ∧ ∃ v, parse pr.value = some v)
      ∧ (∀ st2 : Exporter, processServiceBatch st2 [] = st2) := by
  refine ⟨?_, ?_, ?_, ?_, ?_, ?_, fun st2 => rfl⟩
  · intro q h
    simp only [collect] at h
    rw [(setKeyValues_fields cfg parse c _).2.2.2.2.2.1] at h
    rcases setMetrics_dom_snh _ _ q h with h1 | ⟨b, hm, e, hm2, he⟩
    · exact absurd rfl h1
    · exact ⟨b, mem_svc_of_msgs b _ _ hm, e, hm2, he⟩
  · intro q h
    simp only [collect] at h
    rw [(setKeyValues_fields cfg parse c _).2.2.2.2.2.2.1] at h
    rcases setMetrics_dom_sent _ _ q h with h1 | ⟨b, hm, e, hm2, he⟩
    · exact absurd rfl h1
    · exact ⟨b, mem_svc_of_msgs b _ _ hm, e, hm2, he⟩
  · intro q h
    simp only [collect] at h
    rw [(setKeyValues_fields cfg parse c _).2.2.2.2.2.2.2.1] at h
    rcases setMetrics_dom_senh _ _ q h with h1 | ⟨b, hm, e, hm2, he⟩
    · exact absurd rfl h1
    · exact ⟨b, mem_svc_of_msgs b _ _ hm, e, hm2, he⟩
  · intro s h
    simp only [collect] at h
    rw [(setKeyValues_fields cfg parse c _).2.2.2.2.1] at h
    rcases setMetrics_dom_snt _ _ s h with h1 | ⟨b, hm, e, rest2, hb, he⟩
    · exact absurd rfl h1
    · exact ⟨b, mem_svc_of_msgs b _ _ hm, e, rest2, hb, he⟩
  · intro q h
    simp only [collect] at h
    rw [(setKeyValues_fields cfg parse c _).2.2.2.2.2.2.2.2] at h
    rcases setMetrics_dom_nc _ _ q h with h1 | ⟨b, hm, hc, hm2, he⟩
    · exact absurd rfl h1
    · exact ⟨b, mem_chk_of_msgs b _ _ hm, hc, hm2, he⟩
  · intro k h
    simp only [collect, setKeyValues] at h
    by_cases hpre : cfg.kvPref = ""
    · rw [if_pos hpre] at h
      exact absurd rfl h
    · rw [if_neg hpre] at h
      by_cases herr : (c.kvList cfg.kvPref).err
      · rw [if_pos herr] at h
        exact absurd rfl h
      · rw [if_neg herr] at h
        rcases setKVPairs_dom cfg.kvFilter parse _ _ k h with h1 | hex
        · exact absurd rfl h1
        · exact ⟨hpre, Bool.not_eq_true _ ▸ (by simpa using herr), hex⟩

/-- A fully healthy backend: 3 peers, 2 nodes, one service "web" with a
passing entry on node a and a critical one on node b, one node-level
check, one numeric KV pair. -/
def cOK : Client :=
  ⟨⟨["p1", "p2", "p3"], false⟩, ⟨["a", "b"], false⟩, ⟨["web"], false⟩,
    fun s =>
      if s = "web" then
        ⟨[⟨"web", "a", [⟨"a", "c1", "web", "passing"⟩]⟩,
          ⟨"web", "b", [⟨"b", "c1", "web", "critical"⟩]⟩], false⟩
      else ⟨[], true⟩,
    ⟨[⟨"a", "serfHealth", "", "passing"⟩], false⟩,
    fun _ => ⟨[⟨"k", "12.5"⟩], false⟩⟩

/-- Witness for C6: the populated healthy flag for (web, a) and the
populated KV gauge for key k trace back to data of this scrape. -/
theorem c6_no_stale_labels_witness :
    (∃ b ∈ (queryClient cOK E0).svcMsgs, ∃ e ∈ b,
        (e.service, e.node) = ("web", "a"))
      ∧ ((⟨"pfx", fun _ => true⟩ : Config).kvPref ≠ ""
          ∧ (cOK.kvList "pfx").err = false
          ∧ ∃ pr ∈ (cOK.kvList "pfx").val,
              pr.key = "k" ∧ (fun _ => true) "k" = true
                ∧ ∃ v, parse125 pr.value = some v) :=
  ⟨(c6_no_stale_labels ⟨"pfx", fun _ => true⟩ parse125 cOK E0).1
      ("web", "a") (by decide),
    (c6_no_stale_labels ⟨"pfx", fun _ => true⟩ parse125 cOK E0).2.2.2.2.2.1
      "k" (by decide)⟩

/-! ## C5: the writer lock

The lock discipline of `Collect` and `queryClient` is modelled as traces
of lock/write events.  `Collect` wraps all its vector-gauge mutations in
`mutex.Lock()` / deferred `Unlock()` (lines 159-167), giving one critical
section per scrape; `queryClient` runs as a separate goroutine launched
before the lock is taken (line 157) and writes the scalar gauges (`up`,
lines 196 and 202-203) without holding the lock. -/

/-- An atomic event of the lock trace: acquire, release, or a gauge write,
each tagged with the scrape (thread) performing it. -/
inductive LockEvent where
  | acq (t : ℕ)
  | rel (t : ℕ)
  | write (t : ℕ) (gauge : String)
deriving DecidableEq, Repr

/-- Validity of a trace for one exclusive mutex: an acquire needs a free
lock, a release must come from the holder, writes are unrestricted. -/
def lockValid : Option ℕ → List LockEvent → Bool
  | _, [] => true
  | none, LockEvent.acq t :: rest => lockValid (some t) rest
  | some _, LockEvent.acq _ :: _ => false
  | some u, LockEvent.rel t :: rest => decide (u = t) && lockValid none rest
  | none, LockEvent.rel _ :: _ => false
  | o, LockEvent.write _ _ :: rest => lockValid o rest

/-- The lock holder after a list of events. -/
def ownerAfter : Option ℕ → List LockEvent → Option ℕ
  | o, [] => o
  | _, LockEvent.acq t :: rest => ownerAfter (some t) rest
  | _, LockEvent.rel _ :: rest => ownerAfter none rest
  | o, LockEvent.write _ _ :: rest => ownerAfter o rest

/-- The lock holder just before position `i` of a trace. -/
def ownerAt (tr : List LockEvent) (i : ℕ) : Option ℕ :=
  ownerAfter none (tr.take i)

/-- `Interleave xs ys zs`: `zs` is an order-preserving merge of the two
thread-local event sequences `xs` and `ys`. -/
inductive Interleave {α : Type} : List α → List α → List α → Prop
  | nil : Interleave [] [] []
  | left : ∀ {x : α} {xs ys zs}, Interleave xs ys zs →
      Interleave (x :: xs) ys (x :: zs)
  | right : ∀ {y : α} {xs ys zs}, Interleave xs ys zs →
      Interleave xs (y :: ys) (y :: zs)

/-- The five vector-gauge resets done inside the locked section of
`Collect` (lines 163-167). -/
def collectResetWrites : List String :=
  ["catalog_service_nodes", "catalog_service_node_healthy",
   "catalog_service_entries_by_nodes",
   "catalog_service_entries_by_node_healthy", "agent_check"]

/-- The locked section of one scrape: `Lock()`, the scrape's gauge
mutations, deferred `Unlock()`. -/
def criticalSection (t : ℕ) (writes : List String) : List LockEvent :=
  LockEvent.acq t :: (writes.map (LockEvent.write t) ++ [LockEvent.rel t])

/-- The dispatcher goroutine of a scrape whose peer query fails: it writes
the `up` gauge (line 196) holding no lock at all. -/
def dispatcherPeersFail (t : ℕ) : List LockEvent :=
  [LockEvent.write t "up"]

/-- The trace in which scrape 1's dispatcher writes `up` while scrape 0
holds the writer lock mid-rebuild. -/
def c5Trace : List LockEvent :=
  LockEvent.acq 0 :: LockEvent.write 1 "up" ::
    (collectResetWrites.map (LockEvent.write 0) ++ [LockEvent.rel 0])

theorem interleave_nil_right {α : Type} : ∀ xs : List α, Interleave xs [] xs := by
  intro xs
  induction xs with
  | nil => exact Interleave.nil
  | cons x rest ih => exact Interleave.left ih

theorem interleave_nil_left {α : Type} : ∀ ys : List α, Interleave [] ys ys := by
  intro ys
  induction ys with
  | nil => exact Interleave.nil
  | cons y rest ih => exact Interleave.right ih

theorem interleave_append {α : Type} :
    ∀ xs ys : List α, Interleave xs ys (xs ++ ys) := by
  intro xs ys
  induction xs with
  | nil => simpa using interleave_nil_left ys
  | cons x rest ih => exact Interleave.left ih

theorem interleave_symm {α : Type} :
    ∀ {xs ys zs : List α}, Interleave xs ys zs → Interleave ys xs zs := by
  intro xs ys zs h
  induction h with
  | nil => exact Interleave.nil
  | left _ ih => exact Interleave.right ih
  | right _ ih => exact Interleave.left ih

theorem interleave_of_nil_eq {α : Type} :
    ∀ {ys zs : List α}, Interleave [] ys zs → zs = ys := by
  intro ys zs
  revert ys
  induction zs with
  | nil => intro ys h; cases h; rfl
  | cons z zrest ih =>
    intro ys h
    cases h with
    | right h2 => rw [ih h2]

/-- While a scrape holds the lock, another thread whose next event is an
acquire cannot move: the holder's writes and release come first. -/
theorem lock_blocks (ws : List String) (t u : ℕ) :
    ∀ (ys zs : List LockEvent),
    Interleave (ws.map (LockEvent.write t) ++ [LockEvent.rel t])
      (LockEvent.acq u :: ys) zs →
    lockValid (some t) zs = true →
    zs = (ws.map (LockEvent.write t) ++ [LockEvent.rel t])
          ++ LockEvent.acq u :: ys := by
  induction ws with
  | nil =>
    intro ys zs hint hv
    cases hint with
    | left h2 => rw [interleave_of_nil_eq h2]; rfl
    | right h2 => simp [lockValid] at hv
  | cons w wrest ih =>
    intro ys zs hint hv
    cases hint with
    | left h2 =>
      rename_i zs2
      have hv2 : lockValid (some t) zs2 = true := by
        simpa [lockValid] using hv
      rw [List.map_cons, List.cons_append, List.cons_append]
      rw [ih ys _ h2 hv2]
    | right h2 => simp [lockValid] at hv

/-- C5, amended part: two scrapes' locked sections fully serialize — every
valid interleaving of the two critical sections is one section run to
completion followed by the other. -/
theorem c5_lock_serialization (t1 t2 : ℕ) (w1 w2 : List String)
    (tr : List LockEvent)
    (hint : Interleave (criticalSection t1 w1) (criticalSection t2 w2) tr)
    (hv : lockValid none tr = true) :
    tr = criticalSection t1 w1 ++ criticalSection t2 w2
      ∨ tr = criticalSection t2 w2 ++ criticalSection t1 w1 := by
  rw [show criticalSection t1 w1
      = LockEvent.acq t1 ::
        (w1.map (LockEvent.write t1) ++ [LockEvent.rel t1]) from rfl] at hint
  rw [show criticalSection t2 w2
      = LockEvent.acq t2 ::
        (w2.map (LockEvent.write t2) ++ [LockEvent.rel t2]) from rfl] at hint
  cases hint with
  | left h2 =>
    left
    rename_i zs
    have hv2 : lockValid (some t1) zs = true := by simpa [lockValid] using hv
    have hz := lock_blocks w1 t1 t2 _ _ h2 hv2
    simp only [criticalSection, List.cons_append]
    rw [hz]
  | right h2 =>
    right
    rename_i zs
    have hv2 : lockValid (some t2) zs = true := by simpa [lockValid] using hv
    have hz := lock_blocks w2 t2 t1 _ _ (interleave_symm h2) hv2
    simp only [criticalSection, List.cons_append]
    rw [hz]

/-- Witness for the amended C5 at two concrete scrapes. -/
theorem c5_lock_serialization_witness :
    criticalSection 0 collectResetWrites ++ criticalSection 1 collectResetWrites
        = criticalSection 0 collectResetWrites
            ++ criticalSection 1 collectResetWrites
      ∨ criticalSection 0 collectResetWrites
            ++ criticalSection 1 collectResetWrites
        = criticalSection 1 collectResetWrites
            ++ criticalSection 0 collectResetWrites :=
  c5_lock_serialization 0 1 collectResetWrites collectResetWrites _
    (interleave_append _ _) (by decide)

/-- C5, counterexample: a valid interleaving of scrape 0's locked section
with scrape 1's dispatcher in which scrape 1 writes the `up` gauge at a
moment scrape 0 holds the lock — gauge state is mutated during a scrape by
a thread that does not hold the writer lock. -/
theorem c5_counterexample :
    Interleave (criticalSection 0 collectResetWrites)
        (dispatcherPeersFail 1) c5Trace
      ∧ lockValid none c5Trace = true
      ∧ c5Trace.get? 1 = some (LockEvent.write 1 "up")
      ∧ ownerAt c5Trace 1 = some 0
      ∧ (0 : ℕ) ≠ 1 :=
  ⟨Interleave.left (Interleave.right (interleave_nil_right _)),
    by decide, by decide, by decide, by decide⟩

end ConsulExporter
